import Mathlib

/-!
Verification development for the VCMI launcher mod manager
(`cmodmanager.cpp`): archive root detection, safe directory removal,
the activation-settings writer, the dependency/conflict validators and
the install/uninstall/enable/disable orchestration.

Strings are modelled by Lean `String` (a wrapper around `List Char`);
`QString` character-level operations (`section`, `remove`, `toLower`,
`contains`, `replace`) are embedded as structural functions on the
underlying character list so that all definitions evaluate by `decide`.
`QVariantMap` is modelled as an association list, `QVariant` as an
inductive of the variants the code manipulates.
-/

namespace CModManager

/-- Splits a character list at every occurrence of the separator
character, keeping empty fields, exactly as `QString::section('/')`
counts sections with default flags. -/
def splitSlash : List Char → List (List Char)
  | [] => [[]]
  | c :: rest =>
    if c = '/' then [] :: splitSlash rest
    else
      match splitSlash rest with
      | [] => [[c]]
      | h :: t => (c :: h) :: t

/-- Joins fields with the separator character, inverse of `splitSlash`. -/
def joinSlash : List (List Char) → List Char
  | [] => []
  | [a] => a
  | a :: b :: t => a ++ '/' :: joinSlash (b :: t)

/-- Embeds `QString::section('/', 0, k)`: the first `k+1`
slash-separated fields of the string, joined by the separator. -/
def sectionTo (s : String) (k : Nat) : String :=
  ⟨joinSlash ((splitSlash s.data).take (k + 1))⟩

/-- Embeds `QString::section('/', 2, -1)`: all fields from the third
one on, joined by the separator. -/
def sectionFrom2 (s : String) : String :=
  ⟨joinSlash ((splitSlash s.data).drop 2)⟩

theorem splitSlash_ne_nil (l : List Char) : splitSlash l ≠ [] := by
  cases l with
  | nil => simp [splitSlash]
  | cons c rest =>
    simp only [splitSlash]
    split
    · simp
    · split <;> simp

/-- Total length of the fields plus the separators that `joinSlash`
re-inserts between them. -/
def joinedLen : List (List Char) → Nat
  | [] => 0
  | [a] => a.length
  | a :: b :: t => a.length + 1 + joinedLen (b :: t)

theorem length_joinSlash (ls : List (List Char)) :
    (joinSlash ls).length = joinedLen ls := by
  match ls with
  | [] => rfl
  | [a] => rfl
  | a :: b :: t =>
    simp [joinSlash, joinedLen, length_joinSlash (b :: t)]
    omega

theorem joinedLen_splitSlash (l : List Char) :
    joinedLen (splitSlash l) = l.length := by
  match l with
  | [] => rfl
  | c :: rest =>
    have ih := joinedLen_splitSlash rest
    simp only [splitSlash]
    split
    · have hne := splitSlash_ne_nil rest
      match h : splitSlash rest, hne with
      | h0 :: t0, _ =>
        rw [h] at ih
        cases t0 <;> simp [joinedLen] at ih ⊢ <;> omega
    · have hne := splitSlash_ne_nil rest
      match h : splitSlash rest, hne with
      | h0 :: t0, _ =>
        rw [h] at ih
        cases t0 <;> simp [joinedLen] at ih ⊢ <;> omega

/-- Embeds `QString::toLower` (per-character lowercasing). -/
def strToLower (s : String) : String :=
  ⟨s.data.map Char.toLower⟩

/-- Embeds `QString::compare(a, b, Qt::CaseInsensitive) == 0`:
case-insensitive string equality. -/
def eqCI (a b : String) : Bool :=
  strToLower a == strToLower b

/-- Tests whether the first character list is a prefix of the second. -/
def startsWithCL : List Char → List Char → Bool
  | [], _ => true
  | _ :: _, [] => false
  | a :: as, b :: bs => a == b && startsWithCL as bs

/-- Tests whether the first character list occurs contiguously inside
the second. -/
def infixOfCL (needle : List Char) (hay : List Char) : Bool :=
  match hay with
  | [] => startsWithCL needle []
  | _ :: rest => startsWithCL needle hay || infixOfCL needle rest

/-- Embeds `haystack.contains(needle, Qt::CaseInsensitive)`:
case-insensitive substring containment. -/
def containsCI (haystack needle : String) : Bool :=
  infixOfCL (strToLower needle).data (strToLower haystack).data

/-- Embeds `QString::remove(0, 1)`: drops the first character. -/
def dropFirstChar (s : String) : String :=
  ⟨s.data.drop 1⟩

/-- Embeds the match test of the archive scan: the entry equals the
candidate mod directory name followed by `"/mod.json"`, at the given
folder level (`filename == modDirName + "/mod.json"` where
`modDirName = filename.section('/', 0, folderLevel)`). -/
def isManifestAt (folderLevel : Nat) (file : String) : Bool :=
  file == sectionTo file folderLevel ++ "/mod.json"

/-- Embeds `detectModArchive` (anonymous namespace of
`cmodmanager.cpp`): for folder level 0 then 1, scans all archive
entries in order and returns the first entry's leading sections when
the entry is exactly that folder followed by `/mod.json`; returns `""`
when no entry matches at either level (the archive is then treated as
corrupted by `doInstallMod`).  The `filesToExtract` argument stands
for `ZipArchive::listFiles(path)`. -/
def detectModArchive (filesToExtract : List String) : String :=
  match filesToExtract.find? (isManifestAt 0) with
  | some f => sectionTo f 0
  | none =>
    match filesToExtract.find? (isManifestAt 1) with
    | some f => sectionTo f 1
    | none => ""


/-- Embeds `QVariant` restricted to the shapes the mod manager
manipulates: the invalid/null variant, booleans, and `QVariantMap`
(an ordered association list of string keys). -/
inductive QVariant where
  | vnull : QVariant
  | vbool : Bool → QVariant
  | vmap : List (String × QVariant) → QVariant

/-- Embeds `QVariant::toMap`: the underlying map of a map variant,
and the empty map for every non-map variant. -/
def QVariant.toMap : QVariant → List (String × QVariant)
  | .vmap m => m
  | _ => []

/-- Embeds `QVariantMap::value(key)`: the value stored at the key, or
the default-constructed (null) variant when the key is absent. -/
def qvalue (m : List (String × QVariant)) (k : String) : QVariant :=
  match m with
  | [] => QVariant.vnull
  | (k₁, v) :: rest => if k₁ == k then v else qvalue rest k

/-- Embeds `QVariantMap::insert(key, value)`: replaces the value at an
existing key, otherwise adds the binding. -/
def qmapInsert (m : List (String × QVariant)) (k : String) (v : QVariant) :
    List (String × QVariant) :=
  match m with
  | [] => [(k, v)]
  | (k₁, v₁) :: rest =>
    if k₁ == k then (k, v) :: rest else (k₁, v₁) :: qmapInsert rest k v

/-- Embeds `QVariantMap::contains(key)`. -/
def qmapContains : List (String × QVariant) → String → Bool
  | [], _ => false
  | (k₁, _) :: rest, k => k₁ == k || qmapContains rest k

theorem remainder_length_lt (s : String) (h : 1 < s.length) :
    ("/" ++ sectionFrom2 s).length < s.length := by
  have hs : s.length = joinedLen (splitSlash s.data) := by
    rw [joinedLen_splitSlash]; rfl
  have hsec : (sectionFrom2 s).length = joinedLen ((splitSlash s.data).drop 2) := by
    rw [sectionFrom2]
    show (joinSlash ((splitSlash s.data).drop 2)).length = _
    rw [length_joinSlash]
  rw [String.length_append, hsec]
  have hone : ("/" : String).length = 1 := rfl
  rw [hone]
  have hne := splitSlash_ne_nil s.data
  rw [hs] at h ⊢
  obtain ⟨p0, t, hp⟩ : ∃ p0 t, splitSlash s.data = p0 :: t := by
    cases hq : splitSlash s.data with
    | nil => exact absurd hq hne
    | cons a b => exact ⟨a, b, rfl⟩
  rw [hp] at h ⊢
  cases t with
  | nil => simp [joinedLen] at h ⊢; omega
  | cons p1 t2 =>
    cases t2 with
    | nil => simp [joinedLen] at h ⊢; omega
    | cons q t3 => simp [joinedLen] at h ⊢; omega

/-- Embeds the static `writeValue(path, input, value)` of
`cmodmanager.cpp`: while more than one character of the path remains,
splits off the first route segment (`path.section('/', 0, 1)` with its
leading slash removed), recursively rewrites the submap stored under
that key with the remaining route (`"/" + path.section('/', 2, -1)`),
and re-inserts it; otherwise the supplied value replaces the current
node entirely. -/
def writeValue (path : String) (input : List (String × QVariant))
    (value : QVariant) : QVariant :=
  if _h : 1 < path.length then
    let entryName := dropFirstChar (sectionTo path 1)
    let remainder := "/" ++ sectionFrom2 path
    QVariant.vmap
      (qmapInsert input entryName
        (writeValue remainder (qvalue input entryName).toMap value))
  else value
termination_by path.length
decreasing_by exact remainder_length_lt path _h

/-- Reads the value addressed by a `writeValue`-style route: descends
through the same segments as `writeValue` and returns the node where
the route ends. -/
def readValue (path : String) (input : QVariant) : QVariant :=
  if _h : 1 < path.length then
    let entryName := dropFirstChar (sectionTo path 1)
    let remainder := "/" ++ sectionFrom2 path
    readValue remainder (qvalue input.toMap entryName)
  else input
termination_by path.length
decreasing_by exact remainder_length_lt path _h

/-- Holds when, at every node along the `writeValue` route, each key of
the input map other than the route segment is mapped by the output to
the same value it had in the input. -/
def siblingsPreserved (path : String) (input : List (String × QVariant))
    (output : QVariant) : Prop :=
  if _h : 1 < path.length then
    let entryName := dropFirstChar (sectionTo path 1)
    let remainder := "/" ++ sectionFrom2 path
    (∀ kv ∈ input, kv.1 = entryName ∨
        qvalue output.toMap kv.1 = qvalue input kv.1)
      ∧ siblingsPreserved remainder (qvalue input entryName).toMap
          (qvalue output.toMap entryName)
  else True
termination_by path.length
decreasing_by exact remainder_length_lt path _h

/-- Modelled from the spec: the read-only view of one package that
`CModList::getMod` exposes (the `CModEntry` class is not part of the
sources here).  `installed` is membership on disk, `active` the flag
in the activation document, `compatible` the engine-version check and
`available` presence in a repository; `depends`/`conflicts` are the
manifest's name lists (`getValue("depends")`, `getValue("conflicts")`
as string lists). -/
structure Mod where
  installed : Bool
  active : Bool
  compatible : Bool
  available : Bool
  depends : List String
  conflicts : List String
deriving DecidableEq

/-- Modelled from the spec: `CModEntry::isEnabled` — a package counts
as enabled when it is installed and flagged active (the spec's state
machine has `INSTALLED(enabled)` as a sub-state of `INSTALLED`). -/
def isEnabled (m : Mod) : Bool :=
  m.installed && m.active

/-- Modelled from the spec: `CModEntry::isDisabled` — installed but
not flagged active. -/
def isDisabled (m : Mod) : Bool :=
  m.installed && !m.active

/-- Modelled from the spec: `CModEntry::isSubmod` — the name contains
the `.` separator of a submod path. -/
def isSubmod (name : String) : Bool :=
  name.data.contains '.'

/-- Modelled from the spec: the known-package collection behind
`CModList` (not part of the sources here), as an association list
from package name to its entry. -/
abbrev ModList := List (String × Mod)

/-- Modelled from the spec: `CModList::hasMod`. -/
def hasMod (ml : ModList) (n : String) : Bool :=
  ml.any (fun kv => kv.1 == n)

/-- Modelled from the spec: `CModList::getMod`, returning an entry
with no data (nothing installed, nothing listed) for an unknown
name. -/
def getMod (ml : ModList) (n : String) : Mod :=
  match ml with
  | [] => ⟨false, false, false, false, [], []⟩
  | (k, m) :: rest => if k == n then m else getMod rest n

/-- Modelled from the spec: `CModList::getModList`, the names of all
known packages. -/
def getModList (ml : ModList) : List String :=
  ml.map (fun kv => kv.1)

/-- Filesystem side effects the manager can perform, recorded in
order: archive extraction, directory rename, recursive directory
removal, and persisting the settings document (`JsonToFile`). -/
inductive FsOp where
  | extract : String → String → FsOp
  | rename : String → String → FsOp
  | removeDirRec : List String → FsOp
  | saveSettings : FsOp
deriving DecidableEq

/-- Mutable state of `CModManager`: the error log (`recentErrors`),
the activation document (`modSettings`), the installed-package map
(`localMods`), plus the ordered log of filesystem mutations actually
performed (standing for the real disk). -/
structure MgrState where
  recentErrors : List String
  modSettings : List (String × QVariant)
  localMods : List (String × QVariant)
  fsOps : List FsOp

/-- Embeds `CModManager::addError`: appends `"<mod>: <message>"` to
the error log (the C++ function also returns `false`, which the
call sites below encode). -/
def addError (st : MgrState) (modname message : String) : MgrState :=
  { st with recentErrors := st.recentErrors ++ [modname ++ ": " ++ message] }

/-- Embeds `CModManager::getErrors`: returns the accumulated list and
clears it. -/
def getErrors (st : MgrState) : List String × MgrState :=
  (st.recentErrors, { st with recentErrors := [] })

/-- Embeds `CModManager::canInstallMod`. -/
def canInstallMod (ml : ModList) (st : MgrState) (modname : String) :
    Bool × MgrState :=
  if isSubmod modname then (false, addError st modname "Can not install submod")
  else if (getMod ml modname).installed then
    (false, addError st modname "Mod is already installed")
  else if !(getMod ml modname).available then
    (false, addError st modname "Mod is not available")
  else (true, st)

/-- Embeds `CModManager::canUninstallMod`: only the submod and
installed checks are performed. -/
def canUninstallMod (ml : ModList) (st : MgrState) (modname : String) :
    Bool × MgrState :=
  if isSubmod modname then
    (false, addError st modname "Can not uninstall submod")
  else if !(getMod ml modname).installed then
    (false, addError st modname "Mod is not installed")
  else (true, st)

/-- Embeds the `depends` loop of `canEnableMod`: the first required
name that is unknown, or known but not enabled, rejects. -/
def checkDepends (ml : ModList) (st : MgrState) (modname : String) :
    List String → Bool × MgrState
  | [] => (true, st)
  | d :: rest =>
    if !hasMod ml d then
      (false, addError st modname ("Required mod " ++ d ++ " is missing"))
    else if !isEnabled (getMod ml d) then
      (false, addError st modname ("Required mod " ++ d ++ " is not enabled"))
    else checkDepends ml st modname rest

/-- Embeds the reverse-conflict loop of `canEnableMod`: scanning all
known packages, the first enabled one listing the candidate in its own
`conflicts` rejects. -/
def checkReverseConflicts (ml : ModList) (st : MgrState) (modname : String) :
    List String → Bool × MgrState
  | [] => (true, st)
  | e :: rest =>
    if isEnabled (getMod ml e) && (getMod ml e).conflicts.contains modname then
      (false, addError st modname ("This mod conflicts with " ++ e))
    else checkReverseConflicts ml st modname rest

/-- Embeds the own-conflicts loop of `canEnableMod`: the first name of
the candidate's `conflicts` list that is known and enabled rejects. -/
def checkConflicts (ml : ModList) (st : MgrState) (modname : String) :
    List String → Bool × MgrState
  | [] => (true, st)
  | e :: rest =>
    if hasMod ml e && isEnabled (getMod ml e) then
      (false, addError st modname ("This mod conflicts with " ++ e))
    else checkConflicts ml st modname rest

/-- Embeds `CModManager::canEnableMod`: state checks, compatibility,
then the three scans in source order, first failure winning. -/
def canEnableMod (ml : ModList) (st : MgrState) (modname : String) :
    Bool × MgrState :=
  if isEnabled (getMod ml modname) then
    (false, addError st modname "Mod is already enabled")
  else if !(getMod ml modname).installed then
    (false, addError st modname "Mod must be installed first")
  else if !(getMod ml modname).compatible then
    (false, addError st modname
      "Mod is not compatible, please update VCMI and checkout latest mod revisions")
  else
    match checkDepends ml st modname (getMod ml modname).depends with
    | (false, st₁) => (false, st₁)
    | (true, st₁) =>
      match checkReverseConflicts ml st₁ modname (getModList ml) with
      | (false, st₂) => (false, st₂)
      | (true, st₂) =>
        checkConflicts ml st₂ modname (getMod ml modname).conflicts

/-- Embeds the dependent scan of `canDisableMod`: the first known
package that lists the candidate in its `depends` and is enabled
rejects. -/
def checkDependents (ml : ModList) (st : MgrState) (modname : String) :
    List String → Bool × MgrState
  | [] => (true, st)
  | e :: rest =>
    if (getMod ml e).depends.contains modname && isEnabled (getMod ml e) then
      (false, addError st modname ("This mod is needed to run " ++ e))
    else checkDependents ml st modname rest

/-- Embeds `CModManager::canDisableMod`. -/
def canDisableMod (ml : ModList) (st : MgrState) (modname : String) :
    Bool × MgrState :=
  if isDisabled (getMod ml modname) then
    (false, addError st modname "Mod is already disabled")
  else if !(getMod ml modname).installed then
    (false, addError st modname "Mod must be installed first")
  else checkDependents ml st modname (getModList ml)

/-- Absolute filesystem paths are modelled as their list of components
(`[]` is the root `/`). -/
abbrev FsPath := List String

/-- Embeds `QDir::dirName`: the last path component (empty for the
root). -/
def dirName (p : FsPath) : String :=
  (p.getLast?).getD ""

/-- Embeds `QDir::cdUp`: moves to the parent directory, failing on the
root. -/
def parentDir (p : FsPath) : Option FsPath :=
  match p with
  | [] => none
  | _ => some p.dropLast

/-- Embeds `QDir::absolutePath`: the components joined by `/` with a
leading slash. -/
def absolutePath (p : FsPath) : String :=
  ⟨'/' :: joinSlash (p.map String.data)⟩

/-- Result of `CModManager::removeModDir`: the returned boolean and
whether `QDir::removeRecursively` was actually invoked (i.e. whether
anything was deleted). -/
structure RemoveOutcome where
  returned : Bool
  deleted : Bool
deriving DecidableEq

/-- Embeds `CModManager::removeModDir` on a desktop (non-iOS) build:
`checkDir` must cd up into a directory named `Mods`
(case-insensitively), then cd up again into one named `vcmi`, and the
absolute path must contain both `vcmi` and `Mods` case-insensitively;
any failing check returns `false` with nothing deleted, otherwise
`QDir::removeRecursively` runs and its result (`rrOk`) is returned. -/
def removeModDir (path : FsPath) (rrOk : Bool) : RemoveOutcome :=
  match parentDir path with
  | none => ⟨false, false⟩
  | some p₁ =>
    if !eqCI "Mods" (dirName p₁) then ⟨false, false⟩
    else
      match parentDir p₁ with
      | none => ⟨false, false⟩
      | some p₂ =>
        if !eqCI "vcmi" (dirName p₂) then ⟨false, false⟩
        else if !containsCI (absolutePath path) "vcmi" then ⟨false, false⟩
        else if !containsCI (absolutePath path) "Mods" then ⟨false, false⟩
        else ⟨rrOk, true⟩


/-- External-world inputs of one manager operation: results of the
filesystem queries and of the archive library calls the code makes,
and the rescan outcome used to rebuild `localMods`. -/
structure World where
  archiveExists : Bool
  archiveFiles : List String
  extractOk : Bool
  renameOk : Bool
  modsPath : FsPath
  modDirResolved : FsPath
  modDirExists : Bool
  removeRecursivelyOk : Bool
  rescanMods : List String
  existsRes : String → Bool
  modData : String → QVariant

/-- Embeds a `removeModDir` call inside an operation: the outcome's
deletion, when it happens, is recorded in the state's filesystem
log. -/
def removeModDirSt (w : World) (st : MgrState) (path : FsPath) :
    Bool × MgrState :=
  let o := removeModDir path w.removeRecursivelyOk
  (o.returned,
    if o.deleted then { st with fsOps := st.fsOps ++ [FsOp.removeDirRec path] }
    else st)

/-- Embeds `CModManager::loadMods`: rebuilds the installed-package map
from scratch, keying each discovered mod whose resource exists by the
lowercased mod name (`QString::fromUtf8(modname).toLower()`).  The
stored JSON (size, locality) is irrelevant to the claims and is
supplied by the abstract `modData`. -/
def loadMods (installedMods : List String) (existsRes : String → Bool)
    (modData : String → QVariant) : List (String × QVariant) :=
  installedMods.foldl
    (fun acc modname =>
      if existsRes modname then qmapInsert acc (strToLower modname) (modData modname)
      else acc)
    []

/-- Embeds `CModManager::doEnableMod`: builds the route
`"/activeMods/" + mod.replace(".", "/mods/") + "/active"`, writes the
flag with `writeValue`, stores the new document, persists it with
`JsonToFile` (whose outcome the code never inspects) and returns
`true` unconditionally. -/
def doEnableMod (w : World) (st : MgrState) (mod : String) (flag : Bool) :
    Bool × MgrState :=
  let path := "/activeMods/" ++ ⟨mod.data.flatMap
    (fun c => if c = '.' then "/mods/".data else [c])⟩ ++ "/active"
  let newSettings := (writeValue path st.modSettings (QVariant.vbool flag)).toMap
  (true, { st with
            modSettings := newSettings,
            fsOps := st.fsOps ++ [FsOp.saveSettings] })

/-- Embeds `CModManager::doInstallMod`: archive existence check,
already-installed check against `localMods`, archive detection,
extraction (logged; on failure the partial target is removed and the
operation rejects), best-effort rename to the requested name, removal
of a wrapping outer folder when the detected root is nested, and the
final `localMods` rescan. -/
def doInstallMod (w : World) (st : MgrState) (modname archivePath : String) :
    Bool × MgrState :=
  if !w.archiveExists then (false, addError st modname "Mod archive is missing")
  else if qmapContains st.localMods modname then
    (false, addError st modname "Mod with such name is already installed")
  else
    let modDirName := detectModArchive w.archiveFiles
    if modDirName.length = 0 then
      (false, addError st modname "Mod archive is invalid or corrupted")
    else
      let st₁ := { st with fsOps := st.fsOps ++ [FsOp.extract archivePath modDirName] }
      if !w.extractOk then
        let r := removeModDirSt w st₁ (w.modsPath ++ [modDirName])
        (false, addError r.2 modname "Failed to extract mod data")
      else
        let st₂ :=
          if w.renameOk then
            { st₁ with fsOps := st₁.fsOps ++ [FsOp.rename modDirName modname] }
          else st₁
        let upperLevel := sectionTo modDirName 0
        let st₃ :=
          if upperLevel ≠ modDirName then
            (removeModDirSt w st₂ (w.modsPath ++ [upperLevel])).2
          else st₂
        (true, { st₃ with localMods := loadMods w.rescanMods w.existsRes w.modData })

/-- Embeds `CModManager::doUninstallMod`: resolves the mod directory
case-insensitively (the resolved path is a world input), rejects when
it does not exist, removes it through the `removeModDir` guard
(rejecting with the manual-removal message when the guard or the
removal refuses), then rescans `localMods`. -/
def doUninstallMod (w : World) (st : MgrState) (modname : String) :
    Bool × MgrState :=
  if !w.modDirExists then
    (false, addError st modname "Data with this mod was not found")
  else
    let r := removeModDirSt w st w.modDirResolved
    if !r.1 then
      (false, addError r.2 modname
        ("Mod is located in protected directory, please remove it manually:\n"
          ++ absolutePath w.modDirResolved))
    else
      (true, { r.2 with localMods := loadMods w.rescanMods w.existsRes w.modData })

/-- Embeds `CModManager::installMod`:
`canInstallMod(modname) && doInstallMod(modname, archivePath)`. -/
def installMod (ml : ModList) (w : World) (st : MgrState)
    (modname archivePath : String) : Bool × MgrState :=
  match canInstallMod ml st modname with
  | (true, st₁) => doInstallMod w st₁ modname archivePath
  | (false, st₁) => (false, st₁)

/-- Embeds `CModManager::uninstallMod`:
`canUninstallMod(modname) && doUninstallMod(modname)`. -/
def uninstallMod (ml : ModList) (w : World) (st : MgrState)
    (modname : String) : Bool × MgrState :=
  match canUninstallMod ml st modname with
  | (true, st₁) => doUninstallMod w st₁ modname
  | (false, st₁) => (false, st₁)

/-- Embeds `CModManager::enableMod`:
`canEnableMod(modname) && doEnableMod(modname, true)`. -/
def enableMod (ml : ModList) (w : World) (st : MgrState)
    (modname : String) : Bool × MgrState :=
  match canEnableMod ml st modname with
  | (true, st₁) => doEnableMod w st₁ modname true
  | (false, st₁) => (false, st₁)

/-- Embeds `CModManager::disableMod`:
`canDisableMod(modname) && doEnableMod(modname, false)`. -/
def disableMod (ml : ModList) (w : World) (st : MgrState)
    (modname : String) : Bool × MgrState :=
  match canDisableMod ml st modname with
  | (true, st₁) => doEnableMod w st₁ modname false
  | (false, st₁) => (false, st₁)

theorem qvalue_qmapInsert_self (m : List (String × QVariant)) (k : String)
    (v : QVariant) : qvalue (qmapInsert m k v) k = v := by
  induction m with
  | nil => simp [qmapInsert, qvalue]
  | cons kv rest ih =>
    obtain ⟨k₁, v₁⟩ := kv
    by_cases hk : k₁ = k
    · simp [qmapInsert, qvalue, hk]
    · simp [qmapInsert, qvalue, hk, ih]

theorem qvalue_qmapInsert_ne (m : List (String × QVariant)) (k k₁ : String)
    (v : QVariant) (h : k₁ ≠ k) :
    qvalue (qmapInsert m k v) k₁ = qvalue m k₁ := by
  induction m with
  | nil => simp [qmapInsert, qvalue, Ne.symm h]
  | cons kv rest ih =>
    obtain ⟨k₂, v₂⟩ := kv
    by_cases hk : k₂ = k
    · subst hk
      simp [qmapInsert, qvalue, Ne.symm h]
    · simp [qmapInsert, qvalue, hk, ih]

theorem writeValue_roundtrip_aux (n : Nat) :
    ∀ (path : String), path.length ≤ n →
      ∀ (doc : List (String × QVariant)) (v : QVariant),
        readValue path (writeValue path doc v) = v ∧
          siblingsPreserved path doc (writeValue path doc v) := by
  induction n with
  | zero =>
    intro path hle doc v
    have h : ¬ 1 < path.length := by omega
    rw [writeValue, readValue, siblingsPreserved]
    simp [h]
  | succ n ih =>
    intro path hle doc v
    by_cases h : 1 < path.length
    · have hrem : ("/" ++ sectionFrom2 path).length ≤ n := by
        have := remainder_length_lt path h
        omega
      rw [writeValue, readValue, siblingsPreserved]
      simp only [h, dif_pos]
      set e := dropFirstChar (sectionTo path 1) with he
      set r := "/" ++ sectionFrom2 path with hr
      set W := writeValue r (qvalue doc e).toMap v with hW
      have htm : (QVariant.vmap (qmapInsert doc e W)).toMap = qmapInsert doc e W := rfl
      rw [htm, qvalue_qmapInsert_self]
      refine ⟨(ih r hrem (qvalue doc e).toMap v).1, ?_, ?_⟩
      · intro kv hkv
        by_cases hke : kv.1 = e
        · exact Or.inl hke
        · exact Or.inr (qvalue_qmapInsert_ne doc e kv.1 W hke)
      · exact (ih r hrem (qvalue doc e).toMap v).2
    · rw [writeValue, readValue, siblingsPreserved]
      simp [h]

/-- Claim C5: for every path, document and value, writing the value at
the path with `writeValue` and then reading that same path from the
resulting document yields the written value, and every sibling key
present in the document before the write is present with an unchanged
subtree after the write. -/
theorem writeValue_roundtrip (path : String) (doc : List (String × QVariant))
    (v : QVariant) :
    readValue path (writeValue path doc v) = v ∧
      siblingsPreserved path doc (writeValue path doc v) :=
  writeValue_roundtrip_aux path.length path le_rfl doc v

/-- Claim C8: `getErrors` returns the accumulated errors in append
order, each formatted by `addError` as `"<package>: <message>"`, and
leaves the log empty, so an immediate second call returns an empty
list. -/
theorem getErrors_drain_on_read (st : MgrState) (n m : String) :
    (getErrors st).1 = st.recentErrors ∧
    (getErrors (addError st n m)).1 = st.recentErrors ++ [n ++ ": " ++ m] ∧
    ((getErrors st).2).recentErrors = [] ∧
    (getErrors ((getErrors st).2)).1 = [] := by
  simp [getErrors, addError]

/-- Claim C9: `doEnableMod` returns `true` unconditionally, for every
world (in particular whatever happens to the `JsonToFile`
persistence), state, mod name and flag. -/
theorem doEnableMod_returns_true (w : World) (st : MgrState) (mod : String)
    (flag : Bool) : (doEnableMod w st mod flag).1 = true :=
  rfl

/-- Claim C2: `removeModDir` returns `false` and deletes nothing for
every path whose immediate parent directory name is not
(case-insensitively) `Mods`; moreover whenever nothing was deleted the
call returned `false`, and a deletion only ever happens after every
single guard check passed. -/
theorem removeModDir_refusal (p : FsPath) (rr : Bool) :
    ((parentDir p).map (fun q => eqCI "Mods" (dirName q)) ≠ some true →
      removeModDir p rr = ⟨false, false⟩) ∧
    ((removeModDir p rr).deleted = false →
      removeModDir p rr = ⟨false, false⟩) ∧
    ((removeModDir p rr).deleted = true →
      (parentDir p).map (fun q => eqCI "Mods" (dirName q)) = some true ∧
      ((parentDir p).bind parentDir).map (fun q => eqCI "vcmi" (dirName q))
        = some true ∧
      containsCI (absolutePath p) "vcmi" = true ∧
      containsCI (absolutePath p) "Mods" = true) := by
  unfold removeModDir
  cases hp : parentDir p with
  | none => simp [hp]
  | some p₁ =>
    cases h₁ : eqCI "Mods" (dirName p₁) with
    | false => simp [hp, h₁]
    | true =>
      cases hp₂ : parentDir p₁ with
      | none => simp [hp, h₁, hp₂]
      | some p₂ =>
        cases h₂ : eqCI "vcmi" (dirName p₂) with
        | false => simp [hp, h₁, hp₂, h₂]
        | true =>
          cases h₃ : containsCI (absolutePath p) "vcmi" with
          | false => simp [hp, h₁, hp₂, h₂, h₃]
          | true =>
            cases h₄ : containsCI (absolutePath p) "Mods" with
            | false => simp [hp, h₁, hp₂, h₂, h₃, h₄]
            | true => simp [hp, h₁, hp₂, h₂, h₃, h₄]

/-- Witness for claim C2: deleting `/home/user/Documents` is refused
with no filesystem change. -/
theorem removeModDir_refusal_witness :
    removeModDir ["home", "user", "Documents"] true = ⟨false, false⟩ :=
  (removeModDir_refusal ["home", "user", "Documents"] true).1 (by decide)

/-- Empty manager state used by the concrete instances below. -/
def st0 : MgrState := ⟨[], [], [], []⟩

/-- World of an install attempt on an existing archive whose single
entry is a root-level `mod.json`. -/
def w4 : World :=
  { archiveExists := true, archiveFiles := ["mod.json"], extractOk := true,
    renameOk := true, modsPath := [], modDirResolved := [],
    modDirExists := false, removeRecursivelyOk := true, rescanMods := [],
    existsRes := fun _ => false, modData := fun _ => QVariant.vnull }

theorem slash_mem_of_isManifestAt {k : Nat} {f : String}
    (h : isManifestAt k f = true) : '/' ∈ f.data := by
  have he : f = sectionTo f k ++ "/mod.json" := eq_of_beq h
  rw [he, String.data_append]
  refine List.mem_append_right _ ?_
  decide

/-- Counterexample for claim C4: an archive whose entry list contains
`mod.json` at nesting depth 0 is NOT detected — `detectModArchive`
returns `""`, which is exactly the NOT_FOUND marker, and
`doInstallMod` rejects the archive as invalid or corrupted. -/
theorem detect_root_manifest_rejected :
    detectModArchive ["mod.json"] = "" ∧
    (doInstallMod w4 st0 "MyMod" "arch.zip").1 = false ∧
    (doInstallMod w4 st0 "MyMod" "arch.zip").2.recentErrors
      = ["MyMod: Mod archive is invalid or corrupted"] :=
  ⟨by decide, by decide, by decide⟩

/-- Claim C4 (amended): an entry at nesting depth 0 (one containing no
`/`, such as a root-level `mod.json`) never matches the archive scan:
when every entry of the archive is at depth 0, `detectModArchive`
returns `""` — the NOT_FOUND marker — and `doInstallMod` of such an
archive fails (rejecting it as invalid or corrupted); manifests are
only found one or two folders deep. -/
theorem detectModArchive_no_root_manifest (L : List String)
    (h : ∀ f ∈ L, '/' ∉ f.data) :
    detectModArchive L = "" ∧
      ∀ (w : World) (st : MgrState) (n a : String),
        w.archiveExists = true → w.archiveFiles = L →
        qmapContains st.localMods n = false →
        (doInstallMod w st n a).1 = false := by
  have hnone : ∀ k, L.find? (isManifestAt k) = none := by
    intro k
    apply List.find?_eq_none.mpr
    intro f hf hman
    exact h f hf (slash_mem_of_isManifestAt hman)
  have hdet : detectModArchive L = "" := by
    unfold detectModArchive
    rw [hnone 0, hnone 1]
  refine ⟨hdet, ?_⟩
  intro w st n a hae haf hlm
  simp [doInstallMod, hae, haf, hdet, hlm]

/-- Witness for claim C4 (amended): the single-entry archive
`["mod.json"]` yields the NOT_FOUND marker and a failed install. -/
theorem detectModArchive_no_root_manifest_witness :
    detectModArchive ["mod.json"] = "" ∧
    (doInstallMod w4 st0 "OtherMod" "other.zip").1 = false := by
  have h := detectModArchive_no_root_manifest ["mod.json"] (by decide)
  exact ⟨h.1, h.2 w4 st0 "OtherMod" "other.zip" rfl rfl (by decide)⟩

/-- Claim C6: when `Foo/mod.json` is among the archive entries and
every entry matching at the shallower folder level names `Foo` (the
manifest is only inside the single wrapping folder `Foo`),
`detectModArchive` returns `"Foo"` — the shallower level is scanned
across all entries before the deeper one, so a shallower manifest
always wins over a deeper nested one wherever it sits in the list. -/
theorem detectModArchive_wrapped (L : List String)
    (hmem : "Foo/mod.json" ∈ L)
    (honly : ∀ f ∈ L, isManifestAt 0 f = true → sectionTo f 0 = "Foo") :
    detectModArchive L = "Foo" := by
  have hfoo : isManifestAt 0 "Foo/mod.json" = true := by decide
  have hne : L.find? (isManifestAt 0) ≠ none := by
    intro hn
    exact absurd hfoo (by simpa using List.find?_eq_none.mp hn _ hmem)
  obtain ⟨g, hg⟩ := Option.ne_none_iff_exists'.mp hne
  unfold detectModArchive
  rw [hg]
  exact honly g (List.mem_of_find?_eq_some hg) (List.find?_some hg)

/-- Witness for claim C6: a deeper nested manifest listed first does
not shadow the wrapped `Foo/mod.json`. -/
theorem detectModArchive_wrapped_witness :
    detectModArchive ["Bar/Baz/mod.json", "Foo/mod.json"] = "Foo" :=
  detectModArchive_wrapped _ (by decide) (by decide)

theorem qmapContains_insert_cases (m : List (String × QVariant))
    (k r : String) (v : QVariant)
    (h : qmapContains (qmapInsert m k v) r = true) :
    k = r ∨ qmapContains m r = true := by
  induction m with
  | nil =>
    simp only [qmapInsert, qmapContains, Bool.or_false] at h
    exact Or.inl (eq_of_beq h)
  | cons kv rest ih =>
    obtain ⟨k₂, v₂⟩ := kv
    by_cases hk : (k₂ == k) = true
    · simp only [qmapInsert, if_pos hk, qmapContains] at h
      rcases Bool.or_eq_true_iff.mp h with h₁ | h₂
      · exact Or.inl (eq_of_beq h₁)
      · exact Or.inr (by simp only [qmapContains, h₂, Bool.or_true])
    · simp only [qmapInsert, if_neg hk, qmapContains] at h
      rcases Bool.or_eq_true_iff.mp h with h₁ | h₂
      · exact Or.inr (by simp only [qmapContains, h₁, Bool.true_or])
      · rcases ih h₂ with h₃ | h₄
        · exact Or.inl h₃
        · exact Or.inr (by simp only [qmapContains, h₄, Bool.or_true])

theorem loadMods_contains_aux (ex : String → Bool) (md : String → QVariant) :
    ∀ (l : List String) (acc : List (String × QVariant)) (req : String),
      qmapContains
        (l.foldl
          (fun acc modname =>
            if ex modname then qmapInsert acc (strToLower modname) (md modname)
            else acc)
          acc) req = true →
      qmapContains acc req = true ∨ ∃ n ∈ l, req = strToLower n := by
  intro l
  induction l with
  | nil =>
    intro acc req h
    exact Or.inl h
  | cons x xs ih =>
    intro acc req h
    simp only [List.foldl_cons] at h
    rcases ih _ req h with hacc | ⟨n, hn, he⟩
    · by_cases hx : ex x
      · rw [if_pos hx] at hacc
        rcases qmapContains_insert_cases acc (strToLower x) req (md x) hacc
          with h₁ | h₂
        · exact Or.inr ⟨x, by simp, h₁.symm⟩
        · exact Or.inl h₂
      · rw [if_neg hx] at hacc
        exact Or.inl hacc
    · exact Or.inr ⟨n, by simp [hn], he⟩

theorem loadMods_key_of_contains (installed : List String) (ex : String → Bool)
    (md : String → QVariant) (req : String)
    (h : qmapContains (loadMods installed ex md) req = true) :
    ∃ n ∈ installed, req = strToLower n := by
  rcases loadMods_contains_aux ex md installed [] req h with hacc | he
  · simp [qmapContains] at hacc
  · exact he

/-- Claim C10: every key of the `localMods` map built by `loadMods` is
the lowercased form of some discovered mod name, and consequently the
already-installed check `localMods.contains(modname)` of
`doInstallMod` does not fire for a requested name that matches no
lowercased key — in particular one differing from an installed
package's key only in letter case. -/
theorem loadMods_keys_lowercase :
    (∀ (installed : List String) (ex : String → Bool)
        (md : String → QVariant) (req : String),
        qmapContains (loadMods installed ex md) req = true →
        ∃ n ∈ installed, req = strToLower n) ∧
    (∀ (installed : List String) (ex : String → Bool)
        (md : String → QVariant) (req : String),
        (∀ n ∈ installed, strToLower n ≠ req) →
        qmapContains (loadMods installed ex md) req = false) := by
  refine ⟨loadMods_key_of_contains, ?_⟩
  intro installed ex md req h
  cases hc : qmapContains (loadMods installed ex md) req with
  | false => rfl
  | true =>
    obtain ⟨n, hn, he⟩ := loadMods_key_of_contains installed ex md req hc
    exact absurd he.symm (h n hn)

/-- Witness for claim C10: with `Foo` installed, the map's key is
`foo`, and an install request for the very name `Foo` passes the
already-installed check. -/
theorem loadMods_keys_lowercase_witness :
    (∃ n ∈ ["Foo"], "foo" = strToLower n) ∧
    qmapContains
      (loadMods ["Foo"] (fun _ => true) (fun _ => QVariant.vnull)) "Foo"
      = false :=
  ⟨loadMods_keys_lowercase.1 ["Foo"] (fun _ => true) (fun _ => QVariant.vnull)
      "foo" (by decide),
    loadMods_keys_lowercase.2 ["Foo"] (fun _ => true) (fun _ => QVariant.vnull)
      "Foo" (by decide)⟩

/-- Known-package list where the enabled package `A` depends on the
installed package `B`. -/
def exML : ModList :=
  [("A", ⟨true, true, true, true, ["B"], []⟩),
   ("B", ⟨true, true, true, true, [], []⟩)]

/-- Counterexample for claim C3: with enabled `A` depending on `B`,
`canUninstallMod` nevertheless accepts uninstalling `B` — it returns
`true` and appends no error naming `A` (the dependent check lives in
`canDisableMod`, not in the uninstall validator). -/
theorem canUninstallMod_ignores_dependents :
    isEnabled (getMod exML "A") = true ∧
    List.contains (getMod exML "A").depends "B" = true ∧
    (canUninstallMod exML st0 "B").1 = true ∧
    (canUninstallMod exML st0 "B").2.recentErrors = [] :=
  ⟨by decide, by decide, by decide, by decide⟩

theorem checkDependents_rejects (ml : ModList) (mn : String) :
    ∀ (l : List String) (st : MgrState),
      (∃ e ∈ l, List.contains (getMod ml e).depends mn = true ∧
          isEnabled (getMod ml e) = true) →
      (checkDependents ml st mn l).1 = false ∧
      ∃ e ∈ l, List.contains (getMod ml e).depends mn = true ∧
        isEnabled (getMod ml e) = true ∧
        (checkDependents ml st mn l).2
          = addError st mn ("This mod is needed to run " ++ e) := by
  intro l
  induction l with
  | nil =>
    intro st h
    simp at h
  | cons x xs ih =>
    intro st h
    by_cases hx : (List.contains (getMod ml x).depends mn
        && isEnabled (getMod ml x)) = true
    · have hstep : checkDependents ml st mn (x :: xs)
          = (false, addError st mn ("This mod is needed to run " ++ x)) := by
        simp only [checkDependents]
        rw [if_pos hx]
      rw [hstep]
      rcases Bool.and_eq_true_iff.mp hx with ⟨hx₁, hx₂⟩
      exact ⟨rfl, x, List.mem_cons_self x xs, hx₁, hx₂, rfl⟩
    · have hstep : checkDependents ml st mn (x :: xs)
          = checkDependents ml st mn xs := by
        simp only [checkDependents]
        rw [if_neg hx]
      rw [hstep]
      have hxs : ∃ e ∈ xs, List.contains (getMod ml e).depends mn = true ∧
          isEnabled (getMod ml e) = true := by
        obtain ⟨e, he, hc, hen⟩ := h
        rcases List.mem_cons.mp he with rfl | hmem
        · exact absurd (Bool.and_eq_true_iff.mpr ⟨hc, hen⟩) hx
        · exact ⟨e, hmem, hc, hen⟩
      obtain ⟨h₁, e, he, hc, hen, hst⟩ := ih st hxs
      exact ⟨h₁, e, List.mem_cons_of_mem x he, hc, hen, hst⟩

/-- Claim C3 (amended): the rejection of removing a package `B` that
an enabled package `A` still depends on, with an error naming the
dependent, is performed by `canDisableMod` (the disable validator),
not by `canUninstallMod`: when `B` is installed and not already
disabled and some enabled known package lists `B` in its `depends`,
`canDisableMod` returns `false` and appends an error naming such a
dependent package. -/
theorem canDisableMod_rejects_dependents (ml : ModList) (st : MgrState)
    (B A : String) (hA : A ∈ getModList ml)
    (hdep : List.contains (getMod ml A).depends B = true)
    (hen : isEnabled (getMod ml A) = true)
    (hnd : isDisabled (getMod ml B) = false)
    (hin : (getMod ml B).installed = true) :
    (canDisableMod ml st B).1 = false ∧
    ∃ e ∈ getModList ml, List.contains (getMod ml e).depends B = true ∧
      isEnabled (getMod ml e) = true ∧
      (canDisableMod ml st B).2.recentErrors
        = st.recentErrors ++ [B ++ ": " ++ ("This mod is needed to run " ++ e)] := by
  have hres : canDisableMod ml st B = checkDependents ml st B (getModList ml) := by
    unfold canDisableMod
    rw [if_neg (by simp [hnd]), if_neg (by simp [hin])]
  obtain ⟨h₁, e, he, hc, hee, hst⟩ :=
    checkDependents_rejects ml B (getModList ml) st ⟨A, hA, hdep, hen⟩
  refine ⟨by rw [hres]; exact h₁, e, he, hc, hee, ?_⟩
  rw [hres, hst]
  rfl

/-- Witness for claim C3 (amended): disabling `B` under the concrete
list where enabled `A` depends on it is rejected naming `A`. -/
theorem canDisableMod_rejects_dependents_witness :
    (canDisableMod exML st0 "B").1 = false ∧
    ∃ e ∈ getModList exML, List.contains (getMod exML e).depends "B" = true ∧
      isEnabled (getMod exML e) = true ∧
      (canDisableMod exML st0 "B").2.recentErrors
        = st0.recentErrors ++ ["B" ++ ": " ++ ("This mod is needed to run " ++ e)] :=
  canDisableMod_rejects_dependents exML st0 "B" "A" (by decide) (by decide)
    (by decide) (by decide) (by decide)

theorem installed_of_isEnabled {m : Mod} (h : isEnabled m = true) :
    m.installed = true :=
  (Bool.and_eq_true_iff.mp h).1

theorem checkDepends_true (ml : ModList) (mn : String) :
    ∀ (l : List String) (st : MgrState),
      (checkDepends ml st mn l).1 = true →
      ∀ d ∈ l, hasMod ml d = true ∧ isEnabled (getMod ml d) = true := by
  intro l
  induction l with
  | nil => intro st _ d hd; simp at hd
  | cons x xs ih =>
    intro st h d hd
    by_cases h₁ : hasMod ml x = true
    · by_cases h₂ : isEnabled (getMod ml x) = true
      · have hstep : checkDepends ml st mn (x :: xs)
            = checkDepends ml st mn xs := by
          simp only [checkDepends]
          rw [if_neg (by simp [h₁]), if_neg (by simp [h₂])]
        rw [hstep] at h
        rcases List.mem_cons.mp hd with rfl | hmem
        · exact ⟨h₁, h₂⟩
        · exact ih st h d hmem
      · have hstep : (checkDepends ml st mn (x :: xs)).1 = false := by
          simp only [checkDepends]
          rw [if_neg (by simp [h₁]), if_pos (by simp [Bool.not_eq_true] at h₂ ⊢; exact h₂)]
        rw [hstep] at h
        simp at h
    · have hstep : (checkDepends ml st mn (x :: xs)).1 = false := by
        simp only [checkDepends]
        rw [if_pos (by simp [Bool.not_eq_true] at h₁ ⊢; exact h₁)]
      rw [hstep] at h
      simp at h

theorem checkReverseConflicts_true (ml : ModList) (mn : String) :
    ∀ (l : List String) (st : MgrState),
      (checkReverseConflicts ml st mn l).1 = true →
      ∀ e ∈ l, isEnabled (getMod ml e) = true →
        List.contains (getMod ml e).conflicts mn = false := by
  intro l
  induction l with
  | nil => intro st _ e he; simp at he
  | cons x xs ih =>
    intro st h e he
    by_cases hx : (isEnabled (getMod ml x)
        && List.contains (getMod ml x).conflicts mn) = true
    · have hstep : (checkReverseConflicts ml st mn (x :: xs)).1 = false := by
        simp only [checkReverseConflicts]
        rw [if_pos hx]
      rw [hstep] at h
      simp at h
    · have hstep : checkReverseConflicts ml st mn (x :: xs)
          = checkReverseConflicts ml st mn xs := by
        simp only [checkReverseConflicts]
        rw [if_neg hx]
      rw [hstep] at h
      rcases List.mem_cons.mp he with rfl | hmem
      · intro hen
        cases hc : List.contains (getMod ml e).conflicts mn with
        | false => rfl
        | true => exact absurd (Bool.and_eq_true_iff.mpr ⟨hen, hc⟩) hx
      · exact ih st h e hmem

theorem checkConflicts_true (ml : ModList) (mn : String) :
    ∀ (l : List String) (st : MgrState),
      (checkConflicts ml st mn l).1 = true →
      ∀ e ∈ l, hasMod ml e = true → isEnabled (getMod ml e) = false := by
  intro l
  induction l with
  | nil => intro st _ e he; simp at he
  | cons x xs ih =>
    intro st h e he
    by_cases hx : (hasMod ml x && isEnabled (getMod ml x)) = true
    · have hstep : (checkConflicts ml st mn (x :: xs)).1 = false := by
        simp only [checkConflicts]
        rw [if_pos hx]
      rw [hstep] at h
      simp at h
    · have hstep : checkConflicts ml st mn (x :: xs)
          = checkConflicts ml st mn xs := by
        simp only [checkConflicts]
        rw [if_neg hx]
      rw [hstep] at h
      rcases List.mem_cons.mp he with rfl | hmem
      · intro hhas
        cases hen : isEnabled (getMod ml e) with
        | false => rfl
        | true => exact absurd (Bool.and_eq_true_iff.mpr ⟨hhas, hen⟩) hx
      · exact ih st h e hmem

/-- Claim C1: `canEnableMod` succeeds only if every name in the
candidate's `depends` refers to a known package that is installed and
enabled, no enabled known package lists the candidate in its own
`conflicts` (reverse conflict), and no name of the candidate's
`conflicts` is known and enabled. -/
theorem canEnableMod_success_conditions (ml : ModList) (st : MgrState)
    (P : String) (h : (canEnableMod ml st P).1 = true) :
    (∀ d ∈ (getMod ml P).depends,
        hasMod ml d = true ∧ (getMod ml d).installed = true ∧
          isEnabled (getMod ml d) = true) ∧
    (∀ e ∈ getModList ml, isEnabled (getMod ml e) = true →
        List.contains (getMod ml e).conflicts P = false) ∧
    (∀ c ∈ (getMod ml P).conflicts, hasMod ml c = true →
        isEnabled (getMod ml c) = false) := by
  unfold canEnableMod at h
  split_ifs at h with h₁ h₂ h₃
  cases hd : checkDepends ml st P (getMod ml P).depends with
    | mk b₁ st₁ =>
      rw [hd] at h
      cases b₁ with
      | false => simp at h
      | true =>
        dsimp only at h
        cases hr : checkReverseConflicts ml st₁ P (getModList ml) with
        | mk b₂ st₂ =>
          rw [hr] at h
          cases b₂ with
          | false => simp at h
          | true =>
            dsimp only at h
            have hdep := checkDepends_true ml P (getMod ml P).depends st
              (by rw [hd])
            have hrev := checkReverseConflicts_true ml P (getModList ml) st₁
              (by rw [hr])
            have hcon := checkConflicts_true ml P (getMod ml P).conflicts st₂ h
            exact ⟨fun d hdm =>
                ⟨(hdep d hdm).1, installed_of_isEnabled (hdep d hdm).2,
                  (hdep d hdm).2⟩,
              hrev, hcon⟩

/-- Known-package list on which enabling `P` succeeds: `P` is
installed, inactive and compatible, its dependency `D` is enabled, its
conflict `C` is installed but disabled. -/
def ml1 : ModList :=
  [("P", ⟨true, false, true, true, ["D"], ["C"]⟩),
   ("D", ⟨true, true, true, true, [], []⟩),
   ("C", ⟨true, false, true, true, [], []⟩)]

/-- Witness for claim C1: on `ml1` the validator accepts `P`, and the
three necessary conditions indeed hold. -/
theorem canEnableMod_success_conditions_witness :
    (∀ d ∈ (getMod ml1 "P").depends,
        hasMod ml1 d = true ∧ (getMod ml1 d).installed = true ∧
          isEnabled (getMod ml1 d) = true) ∧
    (∀ e ∈ getModList ml1, isEnabled (getMod ml1 e) = true →
        List.contains (getMod ml1 e).conflicts "P" = false) ∧
    (∀ c ∈ (getMod ml1 "P").conflicts, hasMod ml1 c = true →
        isEnabled (getMod ml1 c) = false) :=
  canEnableMod_success_conditions ml1 st0 "P" (by decide)

/-- Holds when the final state is the initial one with exactly one
entry appended to the error log: the activation document, the
installed-package map and the filesystem log are unchanged. -/
def ErrAppended (st stf : MgrState) : Prop :=
  stf.recentErrors.dropLast = st.recentErrors ∧
  stf.recentErrors.length = st.recentErrors.length + 1 ∧
  stf.modSettings = st.modSettings ∧
  stf.localMods = st.localMods ∧
  stf.fsOps = st.fsOps

theorem errAppended_addError (st : MgrState) (n m : String) :
    ErrAppended st (addError st n m) := by
  refine ⟨?_, ?_, rfl, rfl, rfl⟩
  · simp [addError]
  · simp [addError]

theorem canInstallMod_rejected (ml : ModList) (st : MgrState) (n : String)
    (h : (canInstallMod ml st n).1 = false) :
    ErrAppended st (canInstallMod ml st n).2 := by
  unfold canInstallMod at h ⊢
  split_ifs at h ⊢ <;> exact errAppended_addError st n _

theorem canUninstallMod_rejected (ml : ModList) (st : MgrState) (n : String)
    (h : (canUninstallMod ml st n).1 = false) :
    ErrAppended st (canUninstallMod ml st n).2 := by
  unfold canUninstallMod at h ⊢
  split_ifs at h ⊢ <;> exact errAppended_addError st n _

theorem checkDepends_split (ml : ModList) (mn : String) :
    ∀ (l : List String) (st : MgrState),
      ((checkDepends ml st mn l).1 = true ∧ (checkDepends ml st mn l).2 = st) ∨
      ((checkDepends ml st mn l).1 = false ∧
        ErrAppended st (checkDepends ml st mn l).2) := by
  intro l
  induction l with
  | nil => intro st; exact Or.inl ⟨rfl, rfl⟩
  | cons x xs ih =>
    intro st
    simp only [checkDepends]
    split_ifs with hx₁ hx₂
    · exact Or.inr ⟨rfl, errAppended_addError st mn _⟩
    · exact Or.inr ⟨rfl, errAppended_addError st mn _⟩
    · exact ih st

theorem checkReverseConflicts_split (ml : ModList) (mn : String) :
    ∀ (l : List String) (st : MgrState),
      ((checkReverseConflicts ml st mn l).1 = true ∧
        (checkReverseConflicts ml st mn l).2 = st) ∨
      ((checkReverseConflicts ml st mn l).1 = false ∧
        ErrAppended st (checkReverseConflicts ml st mn l).2) := by
  intro l
  induction l with
  | nil => intro st; exact Or.inl ⟨rfl, rfl⟩
  | cons x xs ih =>
    intro st
    simp only [checkReverseConflicts]
    split_ifs with hx
    · exact Or.inr ⟨rfl, errAppended_addError st mn _⟩
    · exact ih st

theorem checkConflicts_split (ml : ModList) (mn : String) :
    ∀ (l : List String) (st : MgrState),
      ((checkConflicts ml st mn l).1 = true ∧
        (checkConflicts ml st mn l).2 = st) ∨
      ((checkConflicts ml st mn l).1 = false ∧
        ErrAppended st (checkConflicts ml st mn l).2) := by
  intro l
  induction l with
  | nil => intro st; exact Or.inl ⟨rfl, rfl⟩
  | cons x xs ih =>
    intro st
    simp only [checkConflicts]
    split_ifs with hx
    · exact Or.inr ⟨rfl, errAppended_addError st mn _⟩
    · exact ih st

theorem checkDependents_split (ml : ModList) (mn : String) :
    ∀ (l : List String) (st : MgrState),
      ((checkDependents ml st mn l).1 = true ∧
        (checkDependents ml st mn l).2 = st) ∨
      ((checkDependents ml st mn l).1 = false ∧
        ErrAppended st (checkDependents ml st mn l).2) := by
  intro l
  induction l with
  | nil => intro st; exact Or.inl ⟨rfl, rfl⟩
  | cons x xs ih =>
    intro st
    simp only [checkDependents]
    split_ifs with hx
    · exact Or.inr ⟨rfl, errAppended_addError st mn _⟩
    · exact ih st

theorem canEnableMod_rejected (ml : ModList) (st : MgrState) (n : String)
    (h : (canEnableMod ml st n).1 = false) :
    ErrAppended st (canEnableMod ml st n).2 := by
  unfold canEnableMod at h ⊢
  split_ifs at h ⊢ <;> try exact errAppended_addError st n _
  cases hd : checkDepends ml st n (getMod ml n).depends with
  | mk b₁ st₁ =>
    rw [hd] at h
    rcases checkDepends_split ml n (getMod ml n).depends st
      with ⟨hd₁, hd₂⟩ | ⟨hd₁, hd₂⟩
    · rw [hd] at hd₁ hd₂
      cases b₁ with
      | false => simp at hd₁
      | true =>
        dsimp only at h hd₂ ⊢
        rw [hd₂] at h ⊢
        cases hr : checkReverseConflicts ml st n (getModList ml) with
        | mk b₂ st₂ =>
          rw [hr] at h
          rcases checkReverseConflicts_split ml n (getModList ml) st
            with ⟨hr₁, hr₂⟩ | ⟨hr₁, hr₂⟩
          · rw [hr] at hr₁ hr₂
            cases b₂ with
            | false => simp at hr₁
            | true =>
              dsimp only at h hr₂ ⊢
              rw [hr₂] at h ⊢
              rcases checkConflicts_split ml n (getMod ml n).conflicts st
                with ⟨hc₁, hc₂⟩ | ⟨hc₁, hc₂⟩
              · rw [hc₁] at h
                simp at h
              · exact hc₂
          · rw [hr] at hr₁ hr₂
            cases b₂ with
            | true => simp at hr₁
            | false =>
              dsimp only at h hr₂ ⊢
              exact hr₂
    · rw [hd] at hd₁ hd₂
      cases b₁ with
      | true => simp at hd₁
      | false =>
        dsimp only at h hd₂ ⊢
        exact hd₂

theorem canDisableMod_rejected (ml : ModList) (st : MgrState) (n : String)
    (h : (canDisableMod ml st n).1 = false) :
    ErrAppended st (canDisableMod ml st n).2 := by
  unfold canDisableMod at h ⊢
  split_ifs at h ⊢ <;> try exact errAppended_addError st n _
  rcases checkDependents_split ml n (getModList ml) st with ⟨hd₁, _⟩ | ⟨_, hd₂⟩
  · rw [hd₁] at h; simp at h
  · exact hd₂

/-- Claim C7: whenever the validator rejects a transition, the
corresponding public operation returns `false` and the only state
change is one new entry in the error log — the activation document,
the installed-package map and the filesystem are exactly as before the
call. -/
theorem validator_reject_atomic :
    (∀ (ml : ModList) (w : World) (st : MgrState) (n a : String),
        (canInstallMod ml st n).1 = false →
        (installMod ml w st n a).1 = false ∧
          ErrAppended st (installMod ml w st n a).2) ∧
    (∀ (ml : ModList) (w : World) (st : MgrState) (n : String),
        (canUninstallMod ml st n).1 = false →
        (uninstallMod ml w st n).1 = false ∧
          ErrAppended st (uninstallMod ml w st n).2) ∧
    (∀ (ml : ModList) (w : World) (st : MgrState) (n : String),
        (canEnableMod ml st n).1 = false →
        (enableMod ml w st n).1 = false ∧
          ErrAppended st (enableMod ml w st n).2) ∧
    (∀ (ml : ModList) (w : World) (st : MgrState) (n : String),
        (canDisableMod ml st n).1 = false →
        (disableMod ml w st n).1 = false ∧
          ErrAppended st (disableMod ml w st n).2) := by
  refine ⟨?_, ?_, ?_, ?_⟩
  · intro ml w st n a h
    have he := canInstallMod_rejected ml st n h
    unfold installMod
    cases hc : canInstallMod ml st n with
    | mk b st₁ =>
      rw [hc] at h he
      cases b with
      | true => simp at h
      | false => exact ⟨rfl, he⟩
  · intro ml w st n h
    have he := canUninstallMod_rejected ml st n h
    unfold uninstallMod
    cases hc : canUninstallMod ml st n with
    | mk b st₁ =>
      rw [hc] at h he
      cases b with
      | true => simp at h
      | false => exact ⟨rfl, he⟩
  · intro ml w st n h
    have he := canEnableMod_rejected ml st n h
    unfold enableMod
    cases hc : canEnableMod ml st n with
    | mk b st₁ =>
      rw [hc] at h he
      cases b with
      | true => simp at h
      | false => exact ⟨rfl, he⟩
  · intro ml w st n h
    have he := canDisableMod_rejected ml st n h
    unfold disableMod
    cases hc : canDisableMod ml st n with
    | mk b st₁ =>
      rw [hc] at h he
      cases b with
      | true => simp at h
      | false => exact ⟨rfl, he⟩

/-- Witness for claim C7: on the empty known-package list every
validator rejects the unknown name `X`, and each public operation
returns `false` having only appended one error entry. -/
theorem validator_reject_atomic_witness :
    ((installMod [] w4 st0 "X" "a.zip").1 = false ∧
      ErrAppended st0 (installMod [] w4 st0 "X" "a.zip").2) ∧
    ((uninstallMod [] w4 st0 "X").1 = false ∧
      ErrAppended st0 (uninstallMod [] w4 st0 "X").2) ∧
    ((enableMod [] w4 st0 "X").1 = false ∧
      ErrAppended st0 (enableMod [] w4 st0 "X").2) ∧
    ((disableMod [] w4 st0 "X").1 = false ∧
      ErrAppended st0 (disableMod [] w4 st0 "X").2) :=
  ⟨validator_reject_atomic.1 [] w4 st0 "X" "a.zip" (by decide),
    validator_reject_atomic.2.1 [] w4 st0 "X" (by decide),
    validator_reject_atomic.2.2.1 [] w4 st0 "X" (by decide),
    validator_reject_atomic.2.2.2 [] w4 st0 "X" (by decide)⟩

end CModManager
